import Mathlib

/-!
Verification of the delta-time / sector / corner / stint core of an F1
telemetry analysis tool.

The numeric core is shallowly embedded over `ℚ` (real-valued telemetry,
exact arithmetic).  A telemetry trace is a record of the channels the code
reads; the undefined value produced by masking non-positive speeds
(`np.nan` in the source) is modelled by `Option ℚ`, and the
NaN-aware cumulative sum (`np.nancumsum`) skips `none` entries.
Python exceptions are modelled by `Except DeltaError`.
-/

namespace F1

/-- Error outcomes of `compute_delta_time`: the `RuntimeError` raised for a
missing channel (carrying the channel name), and the `IndexError` raised by
the out-of-bounds read `common_distance[1]` when `n_points <= 1`. -/
inductive DeltaError where
  | missingChannel (channel : String)
  | indexError
  deriving DecidableEq

/-- A telemetry trace: the set of column names it exposes, plus the
`Distance` and `Speed` data columns (the only channels the core reads). -/
structure Telemetry where
  columns : List String
  distance : List ℚ
  speed : List ℚ

/-- Minimum of a list of rationals (`Series.min`); junk value 0 on the
empty list, never relied upon by a theorem. -/
def listMin : List ℚ → ℚ
  | [] => 0
  | [x] => x
  | x :: y :: xs => min x (listMin (y :: xs))

/-- Maximum of a list of rationals (`Series.max`); junk value 0 on the
empty list. -/
def listMax : List ℚ → ℚ
  | [] => 0
  | [x] => x
  | x :: y :: xs => max x (listMax (y :: xs))

/-- Model of `np.linspace lo hi n`: `n` evenly spaced samples from `lo`
to `hi` inclusive.  For `n = 0` the result is empty, for `n = 1` it is
`[lo]`, and `numpy` places sample `i` at `lo + (hi - lo) * i / (n - 1)`. -/
def linspace (lo hi : ℚ) (n : ℕ) : List ℚ :=
  if n ≤ 1 then (List.range n).map (fun _ : ℕ => lo)
  else (List.range n).map (fun i : ℕ => lo + (hi - lo) * (i : ℚ) / ((n : ℚ) - 1))

/-- One-dimensional linear interpolation over a list of `(x, f)` sample
pairs, following `np.interp` on an increasing `xp`: clamp to the first
value left of the data, to the last value right of it, and interpolate
linearly inside each segment. -/
def interpP : ℚ → List (ℚ × ℚ) → ℚ
  | _, [] => 0
  | _, [(_, f0)] => f0
  | x, (x0, f0) :: (x1, f1) :: rest =>
    if x ≤ x0 then f0
    else if x ≤ x1 then f0 + (f1 - f0) * (x - x0) / (x1 - x0)
    else interpP x ((x1, f1) :: rest)

/-- Model of `np.interp x xp fp`. -/
def np_interp (x : ℚ) (xp fp : List ℚ) : ℚ := interpP x (xp.zip fp)

/-- Model of `np.nancumsum`: running sum in which an undefined (`none`,
i.e. NaN) entry contributes zero without resetting the total. -/
def nancumsum (xs : List (Option ℚ)) : List ℚ :=
  (xs.scanl (fun acc x => acc + x.getD 0) 0).tail

/-- Embedding of `compute_delta_time` (src/delta_utils.py).  Checks the
`Distance` and `Speed` channels on both traces (raising the error that
names the first absent channel, `Distance` checked before `Speed`), builds
the common axis with `np.linspace` over the overlap of the two distance
ranges, interpolates both speeds onto it, converts km/h to m/s, masks
non-positive speeds to NaN, reads `common_distance[1] - common_distance[0]`
(an `IndexError` when index 1 is out of bounds), and returns the axis
together with `nancumsum(segment/speed_b) - nancumsum(segment/speed_a)`. -/
def compute_delta_time (tel_a tel_b : Telemetry) (n_points : ℕ) :
    Except DeltaError (List ℚ × List ℚ) :=
  if "Distance" ∉ tel_a.columns ∨ "Distance" ∉ tel_b.columns then
    .error (.missingChannel "Distance")
  else if "Speed" ∉ tel_a.columns ∨ "Speed" ∉ tel_b.columns then
    .error (.missingChannel "Speed")
  else
    let lo := max (listMin tel_a.distance) (listMin tel_b.distance)
    let hi := min (listMax tel_a.distance) (listMax tel_b.distance)
    let common := linspace lo hi n_points
    if h : 1 < common.length then
      let segment := common.get ⟨1, h⟩ - common.get ⟨0, Nat.lt_of_le_of_lt (Nat.zero_le 1) h⟩
      let speed_a := common.map (fun x => np_interp x tel_a.distance tel_a.speed / (36 / 10))
      let speed_b := common.map (fun x => np_interp x tel_b.distance tel_b.speed / (36 / 10))
      let inc_a := speed_a.map (fun s => if s ≤ 0 then (none : Option ℚ) else some (segment / s))
      let inc_b := speed_b.map (fun s => if s ≤ 0 then (none : Option ℚ) else some (segment / s))
      .ok (common, List.zipWith (· - ·) (nancumsum inc_b) (nancumsum inc_a))
    else
      .error .indexError

/-- First component (the distance axis) of a successful
`compute_delta_time` result; `[]` on an error. -/
def axisOf : Except DeltaError (List ℚ × List ℚ) → List ℚ
  | .ok p => p.1
  | .error _ => []

/-- Second component (the delta array) of a successful
`compute_delta_time` result; `[]` on an error. -/
def deltaOf : Except DeltaError (List ℚ × List ℚ) → List ℚ
  | .ok p => p.2
  | .error _ => []

/-- Model of `np.argmax` on a boolean array: the index of the first
`true`, and index 0 when no entry is `true`.  (On the empty array `numpy`
raises; this model returns the junk index 0, which no theorem relies
upon.) -/
def argmaxBool : List Bool → ℕ
  | [] => 0
  | true :: _ => 0
  | false :: xs => if xs.any id then argmaxBool xs + 1 else 0

/-- Sector-boundary index selection of `compute_sector_deltas`:
`(distance >= b).argmax()` — the boolean array `distance >= b` followed by
`argmax`, i.e. the first index whose distance is `≥ b`, defaulting to
index 0 when no entry satisfies the predicate. -/
def boundaryIdx (distance : List ℚ) (b : ℚ) : ℕ :=
  argmaxBool (distance.map (fun d => decide (b ≤ d)))

/-- Embedding of `compute_sector_deltas` (src/delta_utils.py): sector
boundaries at one third and two thirds of the maximal distance, and the
three-entry insertion-ordered map of sector deltas.  `delta[i]` is
modelled by `delta.getD i 0` (the default is never reached when the
boundary indices are in bounds) and `delta[-1]` by the last element. -/
def compute_sector_deltas (distance delta : List ℚ) : List (String × ℚ) :=
  let total_distance := listMax distance
  let s1_idx := boundaryIdx distance (total_distance / 3)
  let s2_idx := boundaryIdx distance (2 * total_distance / 3)
  [("Sector 1", delta.getD s1_idx 0),
   ("Sector 2", delta.getD s2_idx 0 - delta.getD s1_idx 0),
   ("Sector 3", (delta.getLast?).getD 0 - delta.getD s2_idx 0)]

/-- Mean of the slice `xs[lo:hi]` (`np.mean(speed[lo:hi])`); an empty
slice yields the junk value 0 (where `numpy` yields NaN), which no theorem
relies upon. -/
def sliceMean (xs : List ℚ) (lo hi : ℕ) : ℚ :=
  let s := (xs.drop lo).take (hi - lo)
  s.sum / (s.length : ℚ)

/-- Raw corner candidates of `detect_corners` (app.py): each interior index
`i` of `range(window, len(speed) - window)` whose trailing-window mean
exceeds the leading-window mean by more than `min_speed_drop`. -/
def rawCorners (speed : List ℚ) (min_speed_drop : ℚ) (window : ℕ) : List ℕ :=
  (List.range' window (speed.length - 2 * window)).filter
    (fun i => decide (min_speed_drop < sliceMean speed (i - window) i - sliceMean speed i (i + window)))

/-- Clustered-detection removal pass of `detect_corners`: keep a candidate
only when it lies more than `min_spacing` past the last kept candidate;
`last` starts at the sentinel `-1000`. -/
def suppress (min_spacing : ℤ) : List ℕ → ℤ → List ℕ
  | [], _ => []
  | idx :: rest, last =>
    if min_spacing < (idx : ℤ) - last then idx :: suppress min_spacing rest idx
    else suppress min_spacing rest last

/-- The indices of a list are each more than `g` past the running base,
starting from `last`: the chain condition the suppression pass
establishes. -/
def spaced (g : ℤ) : ℤ → List ℕ → Prop
  | _, [] => True
  | last, x :: xs => g < (x:ℤ) - last ∧ spaced g (x:ℤ) xs

/-- Embedding of `detect_corners` (app.py): raw windowed-deceleration
candidates followed by the greedy spacing suppression with sentinel
`-1000`. -/
def detect_corners (speed : List ℚ) (min_speed_drop : ℚ) (window : ℕ) (min_spacing : ℤ) :
    List ℕ :=
  suppress min_spacing (rawCorners speed min_speed_drop window) (-1000)

/-- One row of the lap table as read by `extract_tyre_stints`: the
`LapNumber` (an integer, as the source casts it with `int(...)`) and the
`Compound` string. -/
structure Lap where
  lapNumber : ℤ
  compound : String
  deriving DecidableEq

/-- One tyre stint as built by `extract_tyre_stints`, with the `length`
field stored exactly as the source computes it
(`end_lap - start_lap + 1`). -/
structure Stint where
  compound : String
  start_lap : ℤ
  end_lap : ℤ
  length : ℤ
  deriving DecidableEq

/-- Loop body of `extract_tyre_stints`: `cur`/`start` track the current
stint's compound and start lap, `prev` the previous row's lap number
(`laps.iloc[i - 1]["LapNumber"]`); a compound change closes the current
stint, and the final stint always closes at the last row. -/
def stintsGo (cur : String) (start prev : ℤ) : List Lap → List Stint
  | [] => [⟨cur, start, prev, prev - start + 1⟩]
  | l :: ls =>
    if l.compound ≠ cur then
      ⟨cur, start, prev, prev - start + 1⟩ :: stintsGo l.compound l.lapNumber l.lapNumber ls
    else
      stintsGo cur start l.lapNumber ls

/-- Embedding of `extract_tyre_stints` (app.py): empty input yields `[]`;
otherwise the rows are stably sorted by `LapNumber`
(`laps.sort_values("LapNumber")`, modelled by insertion sort) and
run-length encoded over the `Compound` field. -/
def extract_tyre_stints (laps : List Lap) : List Stint :=
  match List.insertionSort (fun a b => a.lapNumber ≤ b.lapNumber) laps with
  | [] => []
  | l0 :: rest => stintsGo l0.compound l0.lapNumber l0.lapNumber rest

/-- The lap range a stint covers, as the spec reads it: the consecutive
lap numbers from `start_lap` through `end_lap` (one entry per unit of
`length`). -/
def stintRange (s : Stint) : List ℤ :=
  (List.range s.length.toNat).map (fun i : ℕ => s.start_lap + (i : ℤ))

/-- The lap numbers of a lap list continue from `p` in strictly
increasing order. -/
def ascFrom (p : ℤ) : List Lap → Prop
  | [] => True
  | l :: ls => p < l.lapNumber ∧ ascFrom l.lapNumber ls

/-- The lap numbers of a lap list are strictly increasing. -/
def StrictLaps : List Lap → Prop
  | [] => True
  | l :: ls => ascFrom l.lapNumber ls

/-- The lap numbers of a lap list continue from `p` in consecutive
(step-one) order. -/
def consecFrom (p : ℤ) : List Lap → Prop
  | [] => True
  | l :: ls => l.lapNumber = p + 1 ∧ consecFrom l.lapNumber ls

/-- The lap numbers of a lap list are consecutive integers. -/
def ConsecLaps : List Lap → Prop
  | [] => True
  | l :: ls => consecFrom l.lapNumber ls

/-- Concrete trace with channels present (used to witness universally
quantified theorems). -/
def okA : Telemetry := ⟨["Distance", "Speed"], [0, 100], [50, 50]⟩

/-- Concrete trace with channels present whose speed column holds only
zero and negative values. -/
def okB : Telemetry := ⟨["Distance", "Speed"], [0, 100], [-60, 0]⟩

/-- Concrete trace whose distance range `[0, 1]` is disjoint from
`farB`'s. -/
def farA : Telemetry := ⟨["Distance", "Speed"], [0, 1], [100, 100]⟩

/-- Concrete trace whose distance range `[10, 11]` is disjoint from
`farA`'s. -/
def farB : Telemetry := ⟨["Distance", "Speed"], [10, 11], [100, 100]⟩

/-- Concrete trace lacking the `Speed` channel. -/
def noSpeed : Telemetry := ⟨["Distance"], [0, 1], []⟩

/-- A monotonic distance axis all of whose entries are negative, so that
no entry reaches a third of its maximum. -/
def negDist : List ℚ := [-9, -6, -3]

/-- Two laps on the same compound with a gap in the lap numbers. -/
def gapLaps : List Lap := [⟨1, "SOFT"⟩, ⟨3, "SOFT"⟩]

/-- Three consecutive laps over two compounds. -/
def exLaps : List Lap := [⟨1, "SOFT"⟩, ⟨2, "SOFT"⟩, ⟨3, "MEDIUM"⟩]

theorem linspace_length (lo hi : ℚ) (n : ℕ) : (linspace lo hi n).length = n := by
  unfold linspace
  split <;> rw [List.length_map, List.length_range]

theorem nancumsum_length (xs : List (Option ℚ)) : (nancumsum xs).length = xs.length := by
  simp [nancumsum, List.length_tail, List.length_scanl]

theorem linspace_pairwise_lt (lo hi : ℚ) (n : ℕ) (h : lo < hi) :
    List.Pairwise (· < ·) (linspace lo hi n) := by
  unfold linspace
  split
  · rename_i hn
    interval_cases n <;> simp
  · rename_i hn
    have key : ∀ i j : ℕ, i < j →
        lo + (hi - lo) * (i:ℚ) / ((n:ℚ) - 1) < lo + (hi - lo) * (j:ℚ) / ((n:ℚ) - 1) := by
      intro i j hij
      have hn2 : (2:ℚ) ≤ (n:ℚ) := by exact_mod_cast (by omega : 2 ≤ n)
      have hden : (0:ℚ) < (n:ℚ) - 1 := by linarith
      have hij' : (i:ℚ) < (j:ℚ) := by exact_mod_cast hij
      have hnum : (hi - lo) * (i:ℚ) < (hi - lo) * (j:ℚ) :=
        mul_lt_mul_of_pos_left hij' (by linarith)
      have hdiv : (hi - lo) * (i:ℚ) / ((n:ℚ) - 1) < (hi - lo) * (j:ℚ) / ((n:ℚ) - 1) :=
        (div_lt_div_iff_of_pos_right hden).mpr hnum
      linarith
    exact List.Pairwise.map (S := fun x y : ℚ => x < y)
      (fun i : ℕ => lo + (hi - lo) * (i:ℚ) / ((n:ℚ) - 1)) key (List.pairwise_lt_range n)

theorem linspace_pairwise_ge (lo hi : ℚ) (n : ℕ) (h : hi ≤ lo) :
    List.Pairwise (fun x y => y ≤ x) (linspace lo hi n) := by
  unfold linspace
  split
  · rename_i hn
    interval_cases n <;> simp
  · rename_i hn
    have key : ∀ i j : ℕ, i < j →
        lo + (hi - lo) * (j:ℚ) / ((n:ℚ) - 1) ≤ lo + (hi - lo) * (i:ℚ) / ((n:ℚ) - 1) := by
      intro i j hij
      have hn2 : (2:ℚ) ≤ (n:ℚ) := by exact_mod_cast (by omega : 2 ≤ n)
      have hden : (0:ℚ) < (n:ℚ) - 1 := by linarith
      have hij' : (i:ℚ) ≤ (j:ℚ) := by exact_mod_cast Nat.le_of_lt hij
      have hnum : (hi - lo) * (j:ℚ) ≤ (hi - lo) * (i:ℚ) :=
        mul_le_mul_of_nonpos_left hij' (by linarith)
      have hdiv : (hi - lo) * (j:ℚ) / ((n:ℚ) - 1) ≤ (hi - lo) * (i:ℚ) / ((n:ℚ) - 1) :=
        (div_le_div_iff_of_pos_right hden).mpr hnum
      linarith
    exact List.Pairwise.map (S := fun x y : ℚ => y ≤ x)
      (fun i : ℕ => lo + (hi - lo) * (i:ℚ) / ((n:ℚ) - 1)) key (List.pairwise_lt_range n)

theorem compute_delta_time_missing_distance (a b : Telemetry) (n : ℕ)
    (h : "Distance" ∉ a.columns ∨ "Distance" ∉ b.columns) :
    compute_delta_time a b n = .error (.missingChannel "Distance") := by
  simp only [compute_delta_time, if_pos h]

theorem compute_delta_time_missing_speed (a b : Telemetry) (n : ℕ)
    (hda : "Distance" ∈ a.columns) (hdb : "Distance" ∈ b.columns)
    (h : "Speed" ∉ a.columns ∨ "Speed" ∉ b.columns) :
    compute_delta_time a b n = .error (.missingChannel "Speed") := by
  have h1 : ¬ ("Distance" ∉ a.columns ∨ "Distance" ∉ b.columns) := by
    push_neg
    exact ⟨hda, hdb⟩
  simp only [compute_delta_time, if_neg h1, if_pos h]

theorem compute_delta_time_index_error (a b : Telemetry) (n : ℕ)
    (hda : "Distance" ∈ a.columns) (hdb : "Distance" ∈ b.columns)
    (hsa : "Speed" ∈ a.columns) (hsb : "Speed" ∈ b.columns)
    (hn : n ≤ 1) :
    compute_delta_time a b n = .error .indexError := by
  have h1 : ¬ ("Distance" ∉ a.columns ∨ "Distance" ∉ b.columns) := by
    push_neg
    exact ⟨hda, hdb⟩
  have h2 : ¬ ("Speed" ∉ a.columns ∨ "Speed" ∉ b.columns) := by
    push_neg
    exact ⟨hsa, hsb⟩
  have hlen : ¬ 1 < (linspace (max (listMin a.distance) (listMin b.distance))
      (min (listMax a.distance) (listMax b.distance)) n).length := by
    rw [linspace_length]
    omega
  simp only [compute_delta_time, if_neg h1, if_neg h2, dif_neg hlen]

theorem compute_delta_time_ok (a b : Telemetry) (n : ℕ)
    (hda : "Distance" ∈ a.columns) (hdb : "Distance" ∈ b.columns)
    (hsa : "Speed" ∈ a.columns) (hsb : "Speed" ∈ b.columns)
    (hn : 2 ≤ n) :
    ∃ axis delta, compute_delta_time a b n = .ok (axis, delta) ∧
      axis = linspace (max (listMin a.distance) (listMin b.distance))
        (min (listMax a.distance) (listMax b.distance)) n ∧
      delta.length = n := by
  have h1 : ¬ ("Distance" ∉ a.columns ∨ "Distance" ∉ b.columns) := by
    push_neg
    exact ⟨hda, hdb⟩
  have h2 : ¬ ("Speed" ∉ a.columns ∨ "Speed" ∉ b.columns) := by
    push_neg
    exact ⟨hsa, hsb⟩
  have hlen : 1 < (linspace (max (listMin a.distance) (listMin b.distance))
      (min (listMax a.distance) (listMax b.distance)) n).length := by
    rw [linspace_length]
    omega
  simp only [compute_delta_time, if_neg h1, if_neg h2, dif_pos hlen]
  refine ⟨_, _, rfl, rfl, ?_⟩
  rw [List.length_zipWith, nancumsum_length, nancumsum_length, List.length_map,
    List.length_map, List.length_map, List.length_map, linspace_length]
  exact Nat.min_self n

/-- C1 (amended): for every pair of traces exposing `Distance` and `Speed`
and every `n_points ≥ 2` (needed for the call to return at all, see C9),
`compute_delta_time` returns two arrays of length exactly `n_points`; the
`distance_axis` is strictly increasing whenever the common axis lower
bound (max of the distance minima) is strictly below its upper bound (min
of the maxima).  Without that overlap the axis is not strictly
increasing. -/
theorem delta_time_output_shape (a b : Telemetry) (n : ℕ)
    (hda : "Distance" ∈ a.columns) (hdb : "Distance" ∈ b.columns)
    (hsa : "Speed" ∈ a.columns) (hsb : "Speed" ∈ b.columns)
    (ha : a.distance ≠ []) (hb : b.distance ≠ []) (hn : 2 ≤ n) :
    ∃ axis delta, compute_delta_time a b n = .ok (axis, delta) ∧
      axis.length = n ∧ delta.length = n ∧
      (max (listMin a.distance) (listMin b.distance) <
          min (listMax a.distance) (listMax b.distance) →
        List.Pairwise (· < ·) axis) := by
  obtain ⟨axis, delta, heq, hax, hd⟩ := compute_delta_time_ok a b n hda hdb hsa hsb hn
  refine ⟨axis, delta, heq, by rw [hax, linspace_length], hd, fun hlt => ?_⟩
  rw [hax]
  exact linspace_pairwise_lt _ _ _ hlt

/-- Witness for C1 at `okA`, `okB`, `n_points = 2`. -/
theorem delta_time_output_shape_witness :
    ∃ axis delta, compute_delta_time okA okB 2 = .ok (axis, delta) ∧
      axis.length = 2 ∧ delta.length = 2 ∧
      (max (listMin okA.distance) (listMin okB.distance) <
          min (listMax okA.distance) (listMax okB.distance) →
        List.Pairwise (· < ·) axis) :=
  delta_time_output_shape okA okB 2 (by decide) (by decide) (by decide) (by decide)
    (by decide) (by decide) (by omega)

/-- Counterexample to C1 as stated: `farA` and `farB` expose both channels,
yet their distance ranges are disjoint and the returned axis
`[10, 11/2, 1]` is strictly decreasing, not strictly increasing. -/
theorem delta_time_axis_cex :
    ("Distance" ∈ farA.columns ∧ "Speed" ∈ farA.columns ∧
     "Distance" ∈ farB.columns ∧ "Speed" ∈ farB.columns ∧
     farA.distance ≠ [] ∧ farB.distance ≠ []) ∧
    axisOf (compute_delta_time farA farB 3) = [10, 11/2, 1] ∧
    ¬ List.Pairwise (· < ·) (axisOf (compute_delta_time farA farB 3)) := by
  have hax : axisOf (compute_delta_time farA farB 3) = [10, 11/2, 1] := by
    obtain ⟨axis, delta, heq, haxis, -⟩ :=
      compute_delta_time_ok farA farB 3 (by decide) (by decide) (by decide) (by decide)
        (by omega)
    rw [heq]
    show axis = _
    rw [haxis]
    have hr3 : List.range 3 = [0, 1, 2] := rfl
    norm_num [farA, farB, listMin, listMax, linspace, hr3, min_def, max_def]
  refine ⟨by decide, hax, ?_⟩
  rw [hax]
  norm_num [List.pairwise_cons]

/-- C2 (amended): when the traces' distance ranges do not overlap (common
lower bound ≥ common upper bound), `compute_delta_time` does not raise
(for `n_points ≥ 2`); the result is degenerate in the sense that the axis
is constant or decreasing, but the arrays still have length `n_points`,
not empty or single-point. -/
theorem delta_time_degenerate_overlap (a b : Telemetry) (n : ℕ)
    (hda : "Distance" ∈ a.columns) (hdb : "Distance" ∈ b.columns)
    (hsa : "Speed" ∈ a.columns) (hsb : "Speed" ∈ b.columns)
    (ha : a.distance ≠ []) (hb : b.distance ≠ []) (hn : 2 ≤ n)
    (hover : min (listMax a.distance) (listMax b.distance) ≤
             max (listMin a.distance) (listMin b.distance)) :
    ∃ axis delta, compute_delta_time a b n = .ok (axis, delta) ∧
      axis.length = n ∧ delta.length = n ∧
      List.Pairwise (fun x y => y ≤ x) axis := by
  obtain ⟨axis, delta, heq, hax, hd⟩ := compute_delta_time_ok a b n hda hdb hsa hsb hn
  refine ⟨axis, delta, heq, by rw [hax, linspace_length], hd, ?_⟩
  rw [hax]
  exact linspace_pairwise_ge _ _ _ hover

/-- Witness for C2 (amended) at `farA`, `farB`, `n_points = 3`. -/
theorem delta_time_degenerate_overlap_witness :
    ∃ axis delta, compute_delta_time farA farB 3 = .ok (axis, delta) ∧
      axis.length = 3 ∧ delta.length = 3 ∧
      List.Pairwise (fun x y => y ≤ x) axis :=
  delta_time_degenerate_overlap farA farB 3 (by decide) (by decide) (by decide) (by decide)
    (by decide) (by decide) (by omega)
    (by norm_num [farA, farB, listMin, listMax, min_def, max_def])

/-- Counterexample to C2 as stated: for the disjoint-range pair `farA`,
`farB` the call indeed does not raise, but the result is not empty or
single-point — both arrays have the full requested length 3. -/
theorem delta_time_degenerate_cex :
    min (listMax farA.distance) (listMax farB.distance) ≤
      max (listMin farA.distance) (listMin farB.distance) ∧
    ∃ axis delta, compute_delta_time farA farB 3 = .ok (axis, delta) ∧
      axis.length = 3 ∧ delta.length = 3 ∧ ¬ axis.length ≤ 1 := by
  refine ⟨by norm_num [farA, farB, listMin, listMax, min_def, max_def], ?_⟩
  obtain ⟨axis, delta, heq, hax, hd⟩ :=
    compute_delta_time_ok farA farB 3 (by decide) (by decide) (by decide) (by decide)
      (by omega)
  have hlen : axis.length = 3 := by rw [hax, linspace_length]
  exact ⟨axis, delta, heq, hlen, hd, by omega⟩

/-- C9: with both channels present on nonempty traces, `compute_delta_time`
fails (with the `IndexError` of the read `common_distance[1]`) for every
`n_points ≤ 1`, whereas for every `n_points ≥ 2` that index access is in
bounds and the call returns normally. -/
theorem delta_time_npoints_bounds (a b : Telemetry) (n : ℕ)
    (hda : "Distance" ∈ a.columns) (hdb : "Distance" ∈ b.columns)
    (hsa : "Speed" ∈ a.columns) (hsb : "Speed" ∈ b.columns)
    (ha : a.distance ≠ []) (hb : b.distance ≠ []) :
    (n ≤ 1 → compute_delta_time a b n = .error .indexError) ∧
    (2 ≤ n → ∃ axis delta, compute_delta_time a b n = .ok (axis, delta)) := by
  constructor
  · intro hn
    exact compute_delta_time_index_error a b n hda hdb hsa hsb hn
  · intro hn
    obtain ⟨axis, delta, heq, -, -⟩ := compute_delta_time_ok a b n hda hdb hsa hsb hn
    exact ⟨axis, delta, heq⟩

/-- Witness for C9: at `n_points = 1` the call fails with the index
error. -/
theorem delta_time_npoints_bounds_witness :
    compute_delta_time okA okB 1 = .error .indexError :=
  (delta_time_npoints_bounds okA okB 1 (by decide) (by decide) (by decide) (by decide)
    (by decide) (by decide)).1 (by omega)

/-- C5: at the default `n_points = 1000`, `compute_delta_time` raises the
error naming the absent channel exactly when either trace lacks `Distance`
or `Speed` (`Distance` checked first), and with both channels present on
nonempty traces it raises no exception — in particular not for zero or
negative speed values, which any trace is allowed to carry here. -/
theorem delta_time_missing_channel (a b : Telemetry) :
    (("Distance" ∉ a.columns ∨ "Distance" ∉ b.columns) →
      compute_delta_time a b 1000 = .error (.missingChannel "Distance")) ∧
    ("Distance" ∈ a.columns → "Distance" ∈ b.columns →
      ("Speed" ∉ a.columns ∨ "Speed" ∉ b.columns) →
      compute_delta_time a b 1000 = .error (.missingChannel "Speed")) ∧
    ("Distance" ∈ a.columns → "Distance" ∈ b.columns →
      "Speed" ∈ a.columns → "Speed" ∈ b.columns →
      a.distance ≠ [] → b.distance ≠ [] →
      ∃ axis delta, compute_delta_time a b 1000 = .ok (axis, delta)) := by
  refine ⟨fun h => compute_delta_time_missing_distance a b 1000 h,
          fun hda hdb h => compute_delta_time_missing_speed a b 1000 hda hdb h,
          fun hda hdb hsa hsb ha hb => ?_⟩
  obtain ⟨axis, delta, heq, -, -⟩ := compute_delta_time_ok a b 1000 hda hdb hsa hsb (by omega)
  exact ⟨axis, delta, heq⟩

/-- Witness for C5: a trace lacking `Speed` produces the error naming
`Speed`, and a pair with zero and negative speed values still returns
normally. -/
theorem delta_time_missing_channel_witness :
    compute_delta_time noSpeed okB 1000 = .error (.missingChannel "Speed") ∧
    ∃ axis delta, compute_delta_time okA okB 1000 = .ok (axis, delta) :=
  ⟨(delta_time_missing_channel noSpeed okB).2.1 (by decide) (by decide) (by decide),
   (delta_time_missing_channel okA okB).2.2 (by decide) (by decide) (by decide) (by decide)
     (by decide) (by decide)⟩

/-- C3: for equal-length non-empty inputs, the result of
`compute_sector_deltas` carries exactly the keys "Sector 1", "Sector 2",
"Sector 3" in that order, and its three values sum exactly to the last
element of `delta` (telescoping identity). -/
theorem sector_deltas_telescoping (distance delta : List ℚ)
    (hlen : distance.length = delta.length) (hne : delta ≠ []) :
    ((compute_sector_deltas distance delta).map Prod.fst =
      ["Sector 1", "Sector 2", "Sector 3"]) ∧
    ((compute_sector_deltas distance delta).map Prod.snd).sum = delta.getLast hne := by
  constructor
  · simp [compute_sector_deltas]
  · simp [compute_sector_deltas, List.getLast?_eq_getLast delta hne]

/-- Witness for C3 at `distance = [0, 1, 2]`, `delta = [1, 2, 4]`. -/
theorem sector_deltas_telescoping_witness :
    ((compute_sector_deltas [(0:ℚ), 1, 2] [(1:ℚ), 2, 4]).map Prod.fst =
      ["Sector 1", "Sector 2", "Sector 3"]) ∧
    ((compute_sector_deltas [(0:ℚ), 1, 2] [(1:ℚ), 2, 4]).map Prod.snd).sum =
      [(1:ℚ), 2, 4].getLast (by simp) :=
  sector_deltas_telescoping [0, 1, 2] [1, 2, 4] (by simp) (by simp)

/-- C4 (amended): in `compute_sector_deltas`, each sector boundary index
is the first index `i` with `distance_axis[i] ≥ b` for boundary value `b`;
but when no index satisfies the predicate, `argmax` resolves the boundary
to index 0 (the first index), not to the last index. -/
theorem boundary_index_selection (distance : List ℚ) (b : ℚ) :
    ((∃ x ∈ distance, b ≤ x) →
      boundaryIdx distance b < distance.length ∧
      b ≤ distance.getD (boundaryIdx distance b) 0 ∧
      ∀ j, j < boundaryIdx distance b → distance.getD j 0 < b) ∧
    ((∀ x ∈ distance, x < b) → boundaryIdx distance b = 0) := by
  induction distance with
  | nil =>
    refine ⟨?_, fun _ => rfl⟩
    rintro ⟨x, hx, -⟩
    simp at hx
  | cons d ds ih =>
    by_cases hd : b ≤ d
    · have hb0 : boundaryIdx (d :: ds) b = 0 := by
        simp [boundaryIdx, argmaxBool, decide_eq_true hd]
      refine ⟨fun _ => ⟨by simp [hb0], ?_, ?_⟩, fun _ => hb0⟩
      · rw [hb0, List.getD_cons_zero]
        exact hd
      · intro j hj
        rw [hb0] at hj
        omega
    · have hdec : decide (b ≤ d) = false := decide_eq_false hd
      by_cases hany : ∃ x ∈ ds, b ≤ x
      · have hany' : (ds.map (fun x => decide (b ≤ x))).any id = true := by
          obtain ⟨x, hx, hbx⟩ := hany
          simp only [List.any_eq_true, id_eq]
          exact ⟨decide (b ≤ x), List.mem_map_of_mem _ hx, decide_eq_true hbx⟩
        have hb1 : boundaryIdx (d :: ds) b = boundaryIdx ds b + 1 := by
          simp [boundaryIdx, argmaxBool, hdec, hany']
        obtain ⟨hlt, hget, hprev⟩ := ih.1 hany
        refine ⟨fun _ => ⟨?_, ?_, ?_⟩, fun hall => ?_⟩
        · simp only [hb1, List.length_cons]
          omega
        · rw [hb1, List.getD_cons_succ]
          exact hget
        · intro j hj
          rw [hb1] at hj
          cases j with
          | zero =>
            rw [List.getD_cons_zero]
            exact lt_of_not_le hd
          | succ k =>
            rw [List.getD_cons_succ]
            exact hprev k (by omega)
        · exfalso
          obtain ⟨x, hx, hbx⟩ := hany
          exact absurd (hall x (List.mem_cons_of_mem d hx)) (not_lt.mpr hbx)
      · have hany' : ¬ (ds.map (fun x => decide (b ≤ x))).any id = true := by
          simp only [List.any_eq_true, id_eq, not_exists, not_and]
          intro x hx
          obtain ⟨y, hy, rfl⟩ := List.mem_map.mp hx
          intro hdec'
          exact hany ⟨y, hy, of_decide_eq_true hdec'⟩
        have hb0 : boundaryIdx (d :: ds) b = 0 := by
          simp only [boundaryIdx, List.map_cons, hdec, argmaxBool]
          rw [if_neg hany']
        refine ⟨fun hex => ?_, fun _ => hb0⟩
        exfalso
        obtain ⟨x, hx, hbx⟩ := hex
        rcases List.mem_cons.mp hx with rfl | hx'
        · exact hd hbx
        · exact hany ⟨x, hx', hbx⟩

/-- Witness for C4 (amended) at `distance = [0, 5, 10]`, `b = 4`: the
boundary index is 1, the first index with value ≥ 4. -/
theorem boundary_index_selection_witness :
    boundaryIdx [(0:ℚ), 5, 10] 4 = 1 ∧
    (boundaryIdx [(0:ℚ), 5, 10] 4 < [(0:ℚ), 5, 10].length ∧
     (4:ℚ) ≤ [(0:ℚ), 5, 10].getD (boundaryIdx [(0:ℚ), 5, 10] 4) 0 ∧
     ∀ j, j < boundaryIdx [(0:ℚ), 5, 10] 4 → [(0:ℚ), 5, 10].getD j 0 < 4) :=
  ⟨by
    have e1 : decide ((4:ℚ) ≤ 0) = false := decide_eq_false (by norm_num)
    have e2 : decide ((4:ℚ) ≤ 5) = true := decide_eq_true (by norm_num)
    simp [boundaryIdx, argmaxBool, e1, e2],
   (boundary_index_selection [0, 5, 10] 4).1 ⟨5, by simp, by norm_num⟩⟩

/-- Counterexample to C4 as stated: on the all-negative monotonic axis
`negDist = [-9, -6, -3]`, the Sector-1 boundary value is `max/3 = -1`, no
entry reaches it, and the boundary resolves to index 0 rather than to the
last index 2. -/
theorem boundary_index_fallback_cex :
    listMax negDist / 3 = -1 ∧
    (∀ x ∈ negDist, x < listMax negDist / 3) ∧
    boundaryIdx negDist (listMax negDist / 3) = 0 ∧
    negDist.length - 1 = 2 ∧
    boundaryIdx negDist (listMax negDist / 3) ≠ negDist.length - 1 := by
  have hmax : listMax negDist = -3 := by norm_num [negDist, listMax, max_def]
  have hb : listMax negDist / 3 = -1 := by
    rw [hmax]
    norm_num
  have e1 : decide ((-1:ℚ) ≤ -9) = false := decide_eq_false (by norm_num)
  have e2 : decide ((-1:ℚ) ≤ -6) = false := decide_eq_false (by norm_num)
  have e3 : decide ((-1:ℚ) ≤ -3) = false := decide_eq_false (by norm_num)
  have h0 : boundaryIdx negDist (listMax negDist / 3) = 0 := by
    rw [hb]
    simp [boundaryIdx, negDist, argmaxBool, e1, e2, e3]
  refine ⟨hb, ?_, h0, by simp [negDist], by rw [h0]; simp [negDist]⟩
  intro x hx
  rw [hb]
  rcases (by simpa [negDist] using hx : x = -9 ∨ x = -6 ∨ x = -3) with rfl | rfl | rfl <;>
    norm_num

theorem suppress_sublist (g : ℤ) : ∀ (l : List ℕ) (last : ℤ), (suppress g l last).Sublist l := by
  intro l
  induction l with
  | nil =>
    intro last
    simp [suppress]
  | cons x xs ih =>
    intro last
    by_cases h : g < (x:ℤ) - last
    · simp only [suppress]
      rw [if_pos h]
      exact (ih x).cons₂ x
    · simp only [suppress]
      rw [if_neg h]
      exact (ih last).cons x

theorem suppress_spaced (g : ℤ) : ∀ (l : List ℕ) (last : ℤ), spaced g last (suppress g l last) := by
  intro l
  induction l with
  | nil =>
    intro last
    exact trivial
  | cons x xs ih =>
    intro last
    by_cases h : g < (x:ℤ) - last
    · simp only [suppress]
      rw [if_pos h]
      exact ⟨h, ih x⟩
    · simp only [suppress]
      rw [if_neg h]
      exact ih last

theorem spaced_mono (g : ℤ) {p q : ℤ} (hpq : p ≤ q) :
    ∀ {t : List ℕ}, spaced g q t → spaced g p t := by
  intro t
  cases t with
  | nil =>
    intro _
    exact trivial
  | cons x xs =>
    rintro ⟨h1, h2⟩
    exact ⟨by omega, h2⟩

theorem spaced_pairwise (g : ℤ) : ∀ (o : List ℕ) (last : ℤ),
    spaced g last o → List.Pairwise (· < ·) o →
    List.Pairwise (fun i j : ℕ => i < j ∧ g < (j:ℤ) - (i:ℤ)) o ∧
    ∀ y ∈ o, g < (y:ℤ) - last := by
  intro o
  induction o with
  | nil =>
    intro last _ _
    exact ⟨List.Pairwise.nil, by simp⟩
  | cons z o' ih =>
    intro last hs hp
    obtain ⟨hz, hs'⟩ := hs
    obtain ⟨hall, hp'⟩ := List.pairwise_cons.mp hp
    obtain ⟨ihp, ihall⟩ := ih z hs' hp'
    refine ⟨List.pairwise_cons.mpr ⟨fun y hy => ⟨hall y hy, ihall y hy⟩, ihp⟩, ?_⟩
    intro y hy
    rcases List.mem_cons.mp hy with rfl | hy'
    · exact hz
    · have h1 := ihall y hy'
      have h2 := hall y hy'
      omega

/-- C6: the index sequence returned by `detect_corners` is strictly
increasing, and any two distinct returned indices differ by more than
`min_spacing` samples. -/
theorem detect_corners_spacing (speed : List ℚ) (min_speed_drop : ℚ) (window : ℕ)
    (min_spacing : ℤ) :
    List.Pairwise (fun i j : ℕ => i < j ∧ min_spacing < (j:ℤ) - (i:ℤ))
      (detect_corners speed min_speed_drop window min_spacing) := by
  have hraw : List.Pairwise (· < ·) (rawCorners speed min_speed_drop window) :=
    List.Pairwise.sublist (List.filter_sublist _) (List.pairwise_lt_range' _ _)
  have hsup : List.Pairwise (· < ·) (detect_corners speed min_speed_drop window min_spacing) :=
    List.Pairwise.sublist (suppress_sublist _ _ _) hraw
  exact (spaced_pairwise min_spacing _ (-1000) (suppress_spaced _ _ _) hsup).1

theorem suppress_optimal (g : ℤ) : ∀ (l : List ℕ), List.Pairwise (· < ·) l →
    ∀ (t : List ℕ) (last : ℤ), t.Sublist l → spaced g last t →
    t.length ≤ (suppress g l last).length := by
  intro l
  induction l with
  | nil =>
    intro _ t last ht _
    simp [List.sublist_nil.mp ht, suppress]
  | cons x xs ih =>
    intro hp t last ht hs
    obtain ⟨hall, hp'⟩ := List.pairwise_cons.mp hp
    by_cases hk : g < (x:ℤ) - last
    · simp only [suppress]
      rw [if_pos hk]
      cases ht with
      | cons _ ht' =>
        cases t with
        | nil => simp
        | cons y t' =>
          obtain ⟨hy, hs'⟩ := hs
          have hxy : x < y := hall y (ht'.subset (List.mem_cons_self y t'))
          have hs'' : spaced g (x:ℤ) t' := spaced_mono g (by exact_mod_cast hxy.le) hs'
          have ht'' : t'.Sublist xs := (List.sublist_cons_self y t').trans ht'
          have hlen := ih hp' t' x ht'' hs''
          simp only [List.length_cons]
          omega
      | cons₂ _ ht' =>
        obtain ⟨hy, hs'⟩ := hs
        have hlen := ih hp' _ x ht' hs'
        simp only [List.length_cons]
        omega
    · simp only [suppress]
      rw [if_neg hk]
      cases ht with
      | cons _ ht' =>
        exact ih hp' t last ht' hs
      | cons₂ _ ht' =>
        obtain ⟨hy, -⟩ := hs
        exact absurd hy hk

/-- C7: for a fixed speed trace and fixed window and min_spacing, raising
`min_speed_drop` never increases the number of indices returned by
`detect_corners` (monotonic suppression). -/
theorem detect_corners_monotone (speed : List ℚ) (window : ℕ) (min_spacing : ℤ)
    (d1 d2 : ℚ) (h : d1 ≤ d2) :
    (detect_corners speed d2 window min_spacing).length ≤
    (detect_corners speed d1 window min_spacing).length := by
  have hsub : (rawCorners speed d2 window).Sublist (rawCorners speed d1 window) := by
    apply List.monotone_filter_right
    intro a ha
    exact decide_eq_true (lt_of_le_of_lt h (of_decide_eq_true ha))
  have hp1 : List.Pairwise (· < ·) (rawCorners speed d1 window) :=
    List.Pairwise.sublist (List.filter_sublist _) (List.pairwise_lt_range' _ _)
  have htsub : (detect_corners speed d2 window min_spacing).Sublist
      (rawCorners speed d1 window) :=
    (suppress_sublist _ _ _).trans hsub
  exact suppress_optimal min_spacing (rawCorners speed d1 window) hp1 _ (-1000) htsub
    (suppress_spaced _ _ _)

/-- Witness for C7 at a concrete trace with `min_speed_drop` raised from 1
to 2. -/
theorem detect_corners_monotone_witness :
    (detect_corners negDist 2 1 0).length ≤ (detect_corners negDist 1 1 0).length :=
  detect_corners_monotone negDist 1 0 1 2 (by norm_num)

theorem consecFrom_ascFrom : ∀ (ls : List Lap) (p : ℤ), consecFrom p ls → ascFrom p ls := by
  intro ls
  induction ls with
  | nil =>
    intro p _
    exact trivial
  | cons l ls ih =>
    intro p hc
    obtain ⟨h1, h2⟩ := hc
    exact ⟨by omega, ih _ h2⟩

theorem ascFrom_all : ∀ (ls : List Lap) (p : ℤ), ascFrom p ls → ∀ l ∈ ls, p < l.lapNumber := by
  intro ls
  induction ls with
  | nil =>
    intro p _ l hl
    simp at hl
  | cons x xs ih =>
    intro p hasc l hl
    obtain ⟨h1, h2⟩ := hasc
    rcases List.mem_cons.mp hl with rfl | hl'
    · exact h1
    · have := ih _ h2 l hl'
      omega

theorem ascFrom_sorted : ∀ (ls : List Lap) (x : Lap), ascFrom x.lapNumber ls →
    List.Sorted (fun a b : Lap => a.lapNumber ≤ b.lapNumber) (x :: ls) := by
  intro ls
  induction ls with
  | nil =>
    intro x _
    simp
  | cons y ys ih =>
    intro x hasc
    obtain ⟨h1, h2⟩ := hasc
    rw [List.sorted_cons]
    constructor
    · intro b hb
      rcases List.mem_cons.mp hb with rfl | hb'
      · omega
      · have := ascFrom_all ys y.lapNumber h2 b hb'
        omega
    · exact ih y h2

theorem strictLaps_sort_eq (laps : List Lap) (hs : StrictLaps laps) :
    List.insertionSort (fun a b : Lap => a.lapNumber ≤ b.lapNumber) laps = laps := by
  cases laps with
  | nil => rfl
  | cons l0 ls => exact List.Sorted.insertionSort_eq (ascFrom_sorted ls l0 hs)

theorem stintsGo_same (c : String) (s p : ℤ) (l : Lap) (ls : List Lap) (h : l.compound = c) :
    stintsGo c s p (l :: ls) = stintsGo c s l.lapNumber ls := by
  simp only [stintsGo]
  rw [if_neg (not_not_intro h)]

theorem stintsGo_diff (c : String) (s p : ℤ) (l : Lap) (ls : List Lap) (h : l.compound ≠ c) :
    stintsGo c s p (l :: ls) =
      ⟨c, s, p, p - s + 1⟩ :: stintsGo l.compound l.lapNumber l.lapNumber ls := by
  simp only [stintsGo]
  rw [if_pos h]

theorem stintsGo_ne_nil : ∀ (rest : List Lap) (c : String) (s p : ℤ),
    stintsGo c s p rest ≠ [] := by
  intro rest
  induction rest with
  | nil =>
    intro c s p
    simp [stintsGo]
  | cons l ls ih =>
    intro c s p
    by_cases hcomp : l.compound = c
    · rw [stintsGo_same c s p l ls hcomp]
      exact ih c s l.lapNumber
    · rw [stintsGo_diff c s p l ls hcomp]
      simp

theorem stintsGo_head : ∀ (rest : List Lap) (c : String) (s p : ℤ),
    ∃ e : ℤ, (stintsGo c s p rest).head? = some ⟨c, s, e, e - s + 1⟩ := by
  intro rest
  induction rest with
  | nil =>
    intro c s p
    exact ⟨p, rfl⟩
  | cons l ls ih =>
    intro c s p
    by_cases hcomp : l.compound = c
    · rw [stintsGo_same c s p l ls hcomp]
      exact ih c s l.lapNumber
    · rw [stintsGo_diff c s p l ls hcomp]
      exact ⟨p, rfl⟩

theorem stintsGo_last_end : ∀ (rest : List Lap) (c : String) (s p : ℤ),
    ((stintsGo c s p rest).getLast?).map Stint.end_lap =
      some (((rest.map Lap.lapNumber).getLast?).getD p) := by
  intro rest
  induction rest with
  | nil =>
    intro c s p
    rfl
  | cons l ls ih =>
    intro c s p
    by_cases hcomp : l.compound = c
    · rw [stintsGo_same c s p l ls hcomp, ih]
      simp only [List.map_cons, List.getLast?_cons, Option.getD_some]
    · rw [stintsGo_diff c s p l ls hcomp]
      obtain ⟨r, rs, hrec⟩ :=
        List.exists_cons_of_ne_nil (stintsGo_ne_nil ls l.compound l.lapNumber l.lapNumber)
      rw [hrec, List.getLast?_cons_cons, ← hrec, ih]
      simp only [List.map_cons, List.getLast?_cons, Option.getD_some]

theorem stintsGo_start_le : ∀ (rest : List Lap) (c : String) (s p : ℤ),
    s ≤ p → ascFrom p rest → ∀ st ∈ stintsGo c s p rest, st.start_lap ≤ st.end_lap := by
  intro rest
  induction rest with
  | nil =>
    intro c s p hle _ st hst
    rw [List.mem_singleton.mp hst]
    exact hle
  | cons l ls ih =>
    intro c s p hle hasc st hst
    obtain ⟨h1, h2⟩ := hasc
    by_cases hcomp : l.compound = c
    · rw [stintsGo_same c s p l ls hcomp] at hst
      exact ih c s l.lapNumber (by omega) h2 st hst
    · rw [stintsGo_diff c s p l ls hcomp] at hst
      rcases List.mem_cons.mp hst with rfl | hst'
      · exact hle
      · exact ih l.compound l.lapNumber l.lapNumber le_rfl h2 st hst'

theorem stintsGo_chain : ∀ (rest : List Lap) (c : String) (s p : ℤ),
    List.Chain' (fun a b : Stint => a.compound ≠ b.compound) (stintsGo c s p rest) := by
  intro rest
  induction rest with
  | nil =>
    intro c s p
    exact List.chain'_singleton _
  | cons l ls ih =>
    intro c s p
    by_cases hcomp : l.compound = c
    · rw [stintsGo_same c s p l ls hcomp]
      exact ih c s l.lapNumber
    · rw [stintsGo_diff c s p l ls hcomp, List.chain'_cons']
      refine ⟨?_, ih l.compound l.lapNumber l.lapNumber⟩
      intro y hy
      obtain ⟨e, hh⟩ := stintsGo_head ls l.compound l.lapNumber l.lapNumber
      rw [hh] at hy
      simp only [Option.mem_def, Option.some.injEq] at hy
      rw [← hy]
      exact Ne.symm hcomp

theorem stintRange_single (c : String) (s : ℤ) : stintRange ⟨c, s, s, s - s + 1⟩ = [s] := by
  have hr : ((s - s + 1 : ℤ)).toNat = 1 := by omega
  have h1 : List.range 1 = [0] := rfl
  simp [stintRange, hr, h1]

theorem stintRange_snoc (c : String) (s p : ℤ) (h : s ≤ p) :
    stintRange ⟨c, s, p + 1, p + 1 - s + 1⟩ = stintRange ⟨c, s, p, p - s + 1⟩ ++ [p + 1] := by
  have h1 : (p + 1 - s + 1).toNat = (p - s + 1).toNat + 1 := by omega
  have h2 : s + ((p - s + 1).toNat : ℤ) = p + 1 := by omega
  simp only [stintRange, h1, List.range_succ, List.map_append, List.map_cons, List.map_nil, h2]

theorem stintsGo_flat : ∀ (rest : List Lap) (cur : String) (start prev : ℤ),
    start ≤ prev → consecFrom prev rest →
    ((stintsGo cur start prev rest).map stintRange).flatten =
      stintRange ⟨cur, start, prev, prev - start + 1⟩ ++ rest.map Lap.lapNumber ∧
    ((stintsGo cur start prev rest).map Stint.length).sum =
      (prev - start + 1) + (rest.length : ℤ) := by
  intro rest
  induction rest with
  | nil =>
    intro cur start prev hle _
    constructor
    · simp [stintsGo]
    · simp [stintsGo]
  | cons l ls ih =>
    intro cur start prev hle hc
    obtain ⟨hl, hc'⟩ := hc
    by_cases hcomp : l.compound = cur
    · obtain ⟨ih1, ih2⟩ := ih cur start l.lapNumber (by omega) hc'
      rw [stintsGo_same cur start prev l ls hcomp]
      constructor
      · simp only [List.map_cons]
        rw [ih1, hl, stintRange_snoc cur start prev hle]
        simp
      · rw [ih2, hl]
        simp only [List.length_cons]
        push_cast
        ring
    · obtain ⟨ih1, ih2⟩ := ih l.compound l.lapNumber l.lapNumber le_rfl hc'
      rw [stintsGo_diff cur start prev l ls hcomp]
      constructor
      · simp only [List.map_cons, List.flatten_cons]
        rw [ih1, stintRange_single]
        simp
      · simp only [List.map_cons, List.sum_cons]
        rw [ih2]
        simp only [List.length_cons]
        push_cast
        ring

/-- C8 (amended): for every lap sequence whose lap numbers are consecutive
(each lap number one past the previous), the stints of
`extract_tyre_stints` partition the laps: concatenating the stints' lap
ranges reconstructs the lap-number sequence and the stint lengths sum to
the lap count; the empty input yields the empty sequence.  With merely
strictly increasing lap numbers the claim fails, because a gap inside a
stint inflates its range and `length` field (see the counterexample). -/
theorem extract_stints_partition :
    (∀ laps : List Lap, ConsecLaps laps →
      ((extract_tyre_stints laps).map stintRange).flatten = laps.map Lap.lapNumber ∧
      ((extract_tyre_stints laps).map Stint.length).sum = (laps.length : ℤ)) ∧
    extract_tyre_stints [] = [] := by
  refine ⟨?_, rfl⟩
  intro laps hc
  cases laps with
  | nil =>
    constructor <;> simp [extract_tyre_stints]
  | cons l0 ls =>
    have hasc : consecFrom l0.lapNumber ls := hc
    have hsort := strictLaps_sort_eq (l0 :: ls) (consecFrom_ascFrom ls l0.lapNumber hasc)
    have hext : extract_tyre_stints (l0 :: ls) =
        stintsGo l0.compound l0.lapNumber l0.lapNumber ls := by
      simp only [extract_tyre_stints, hsort]
    obtain ⟨h1, h2⟩ := stintsGo_flat ls l0.compound l0.lapNumber l0.lapNumber le_rfl hasc
    rw [hext]
    constructor
    · rw [h1, stintRange_single]
      simp
    · rw [h2]
      simp only [List.length_cons]
      push_cast
      ring

/-- Witness for C8 (amended) at the consecutive laps
`[(1, SOFT), (2, SOFT), (3, MEDIUM)]`. -/
theorem extract_stints_partition_witness :
    ConsecLaps exLaps ∧
    ((extract_tyre_stints exLaps).map stintRange).flatten = exLaps.map Lap.lapNumber ∧
    ((extract_tyre_stints exLaps).map Stint.length).sum = (exLaps.length : ℤ) :=
  ⟨by norm_num [ConsecLaps, consecFrom, exLaps],
   (extract_stints_partition.1 exLaps (by norm_num [ConsecLaps, consecFrom, exLaps])).1,
   (extract_stints_partition.1 exLaps (by norm_num [ConsecLaps, consecFrom, exLaps])).2⟩

/-- Counterexample to C8 as stated: the strictly increasing laps
`[(1, SOFT), (3, SOFT)]` have a gap, the single extracted stint spans laps
1–3 with `length = 3`, so the ranges do not reconstruct the input and the
lengths do not sum to the number of laps (2). -/
theorem extract_stints_partition_cex :
    StrictLaps gapLaps ∧
    extract_tyre_stints gapLaps = [⟨"SOFT", 1, 3, 3⟩] ∧
    ((extract_tyre_stints gapLaps).map Stint.length).sum ≠ (gapLaps.length : ℤ) ∧
    ((extract_tyre_stints gapLaps).map stintRange).flatten ≠ gapLaps.map Lap.lapNumber := by
  refine ⟨by norm_num [StrictLaps, ascFrom, gapLaps], by decide, by decide, ?_⟩
  have hext : extract_tyre_stints gapLaps = [⟨"SOFT", 1, 3, 3⟩] := by decide
  rw [hext]
  have hr3 : List.range 3 = [0, 1, 2] := rfl
  simp [stintRange, gapLaps, hr3]

/-- C10: on a non-empty lap sequence with strictly increasing lap numbers,
`extract_tyre_stints` returns a non-empty sequence in which every stint
has `start_lap ≤ end_lap`, the first stint starts at the first lap's
number, the last stint ends at the last lap's number, and consecutive
stints carry different compounds. -/
theorem stints_invariants (laps : List Lap) (hne : laps ≠ []) (hs : StrictLaps laps) :
    extract_tyre_stints laps ≠ [] ∧
    (∀ st ∈ extract_tyre_stints laps, st.start_lap ≤ st.end_lap) ∧
    ((extract_tyre_stints laps).head?).map Stint.start_lap =
      (laps.head?).map Lap.lapNumber ∧
    ((extract_tyre_stints laps).getLast?).map Stint.end_lap =
      (laps.getLast?).map Lap.lapNumber ∧
    List.Chain' (fun a b : Stint => a.compound ≠ b.compound) (extract_tyre_stints laps) := by
  cases laps with
  | nil => exact absurd rfl hne
  | cons l0 ls =>
    have hasc : ascFrom l0.lapNumber ls := hs
    have hsort := strictLaps_sort_eq (l0 :: ls) hs
    have hext : extract_tyre_stints (l0 :: ls) =
        stintsGo l0.compound l0.lapNumber l0.lapNumber ls := by
      simp only [extract_tyre_stints, hsort]
    rw [hext]
    refine ⟨stintsGo_ne_nil ls l0.compound l0.lapNumber l0.lapNumber,
      stintsGo_start_le ls l0.compound l0.lapNumber l0.lapNumber le_rfl hasc, ?_, ?_,
      stintsGo_chain ls l0.compound l0.lapNumber l0.lapNumber⟩
    · obtain ⟨e, hh⟩ := stintsGo_head ls l0.compound l0.lapNumber l0.lapNumber
      rw [hh]
      simp
    · rw [stintsGo_last_end ls l0.compound l0.lapNumber l0.lapNumber, List.getLast?_map,
        Option.getD_map, List.getLast?_cons]
      simp

/-- Witness for C10 at the laps `[(1, SOFT), (2, SOFT), (3, MEDIUM)]`. -/
theorem stints_invariants_witness :
    extract_tyre_stints exLaps ≠ [] ∧
    (∀ st ∈ extract_tyre_stints exLaps, st.start_lap ≤ st.end_lap) ∧
    ((extract_tyre_stints exLaps).head?).map Stint.start_lap =
      (exLaps.head?).map Lap.lapNumber ∧
    ((extract_tyre_stints exLaps).getLast?).map Stint.end_lap =
      (exLaps.getLast?).map Lap.lapNumber ∧
    List.Chain' (fun a b : Stint => a.compound ≠ b.compound) (extract_tyre_stints exLaps) :=
  stints_invariants exLaps (by decide) (by norm_num [StrictLaps, ascFrom, exLaps])

end F1
